import Mathlib

/-!
Verification of the SampleGalaxy corpus-analysis and query engine.

This file gives a shallow embedding, in Lean, of the algorithmic core of the
repository (the Overlap Resolver `remove_overlaps` with its spiral search, the
filename classifier `classify_sample`, the nearest-point and random-neighbor
queries of the viewer, the visibility mask of `update_plot`, and the cache
decision logic of `analyze_samples`), together with theorems settling the
specification claims about them.

Modelling conventions:
* Python floats are modelled by exact rationals `ℚ`; `math.sqrt(n_points)` is
  modelled by an explicit parameter `s` (constrained by `s * s = n` where a
  claim needs it).
* Python strings are modelled by their code-point sequences `List ℕ` where the
  code manipulates them character-wise (the classifier), and by `String` where
  they are opaque keys (paths, category labels).
* `np.argsort` (an unstable sort) is modelled by quantifying over an arbitrary
  index list that is a sorted permutation of the index range.
* `np.random.choice` is modelled by quantifying over the drawn index.
-/

/-- Model of Python `str.lower` on a single ASCII code point: code points 65..90
are shifted to 97..122, everything else is unchanged. -/
def lowerCode (c : ℕ) : ℕ :=
  if 65 ≤ c ∧ c ≤ 90 then c + 32 else c

/-- Model of Python `str.lower` on a whole string of code points. -/
def strLower (s : List ℕ) : List ℕ := s.map lowerCode

/-- Model of `os.path.basename`: the suffix after the last separator `/`
(code point 47). -/
def basenameCodes (s : List ℕ) : List ℕ :=
  (s.reverse.takeWhile (fun c => c ≠ 47)).reverse

/-- Does `hay` start with `needle`?  Helper for the Python `in` substring
test. -/
def startsWithSeq : List ℕ → List ℕ → Bool
  | [], _ => true
  | _ :: _, [] => false
  | a :: as, b :: bs => a == b && startsWithSeq as bs

/-- Model of the Python substring test `needle in hay` (contiguous
substring). -/
def containsSeq (needle : List ℕ) : List ℕ → Bool
  | [] => needle.isEmpty
  | c :: t => startsWithSeq needle (c :: t) || containsSeq needle t

/-- Code points of a Lean string literal, used to inject concrete filenames
and keyword tokens into the embedding. -/
def strCodes (s : String) : List ℕ := s.toList.map Char.toNat

/-- Does the lowered `name` contain any of the given keyword tokens?  Models
the Python idiom `any(x in name for x in [...])`. -/
def anyTok (name : List ℕ) (toks : List String) : Bool :=
  toks.any (fun t => containsSeq (strCodes t) name)

/-- Embedding of `classify_sample` from `sorter.py` / `analyzer.py` after the
filename has been lowered: the ordered keyword / duration decision chain.
`name` is the lowered basename, `duration` the sample length in seconds. -/
def classifyName (name : List ℕ) (duration : ℚ) : String :=
  if containsSeq (strCodes "bpm") name || containsSeq (strCodes "loop") name
      || decide (duration > 4) then
    if containsSeq (strCodes "top") name then "LOOP" else "LOOP"
  else if anyTok name ["guitar", "gtr", "acoustic", "electric"] then "GUITAR"
  else if anyTok name ["piano", "key", "synth", "rhodes", "organ"] then "PIANO"
  else if containsSeq (strCodes "bass") name || containsSeq (strCodes "808") name then "BASS"
  else if containsSeq (strCodes "kick") name || containsSeq (strCodes "bd") name then
    if decide (duration > 0.8) then "BASS" else "KICK"
  else if anyTok name ["snare", "sd"] then "SNARE"
  else if anyTok name ["clap", "cp"] then "CLAP"
  else if anyTok name ["hat", "hh", "oh", "ch"] then "HIHAT"
  else if anyTok name ["crash", "cymbal", "ride", "cy"] then "CRASH"
  else if anyTok name ["tom", "tm"] then "TOM"
  else if containsSeq (strCodes "perc") name then "FX"
  else if anyTok name ["fx", "sfx", "riser", "downer", "vox", "vocal"] then "FX"
  else "UNKNOWN"

/-- Embedding of `classify_sample(file_path, duration)`: lowercases the
basename of the path and runs the keyword / duration decision chain. -/
def classify_sample (file_path : List ℕ) (duration : ℚ) : String :=
  classifyName (strLower (basenameCodes file_path)) duration

/-- Model of Python `int(...)` on a float value: truncation toward zero. -/
def pyInt (q : ℚ) : ℤ := if q < 0 then ⌈q⌉ else ⌊q⌋

/-- Model of Python `round(...)` (and numpy `__round__`) on a float value:
round half to even. -/
def pyRound (q : ℚ) : ℤ :=
  if q - ⌊q⌋ < 1/2 then ⌊q⌋
  else if 1/2 < q - ⌊q⌋ then ⌊q⌋ + 1
  else if ⌊q⌋ % 2 = 0 then ⌊q⌋ else ⌊q⌋ + 1

/-- Embedding of the grid-size computation of `remove_overlaps`:
`grid_size = int(math.sqrt(n_points) * spread); if grid_size < 100:
grid_size = 100`.  The parameter `s` stands for `math.sqrt(n_points)`. -/
def grid_size (s spread : ℚ) : ℤ :=
  let g := pyInt (s * spread)
  if g < 100 then 100 else g

/-- Embedding of the generator `get_spiral_points(cx, cy, radius)`: the center
cell for radius 0, and for positive radius the four perimeter edges of the
`(2r+1) × (2r+1)` square in the source order: top edge left to right, right
edge top to bottom, bottom edge right to left, left edge bottom to top. -/
def get_spiral_points (cx cy : ℤ) (radius : ℕ) : List (ℤ × ℤ) :=
  if radius = 0 then [(cx, cy)]
  else
    ((List.range (2 * radius + 1)).map
      (fun (k : ℕ) => (cx - (radius : ℤ) + (k : ℤ), cy - (radius : ℤ)))) ++
    ((List.range (2 * radius)).map
      (fun (k : ℕ) => (cx + (radius : ℤ), cy - (radius : ℤ) + 1 + (k : ℤ)))) ++
    ((List.range (2 * radius)).map
      (fun (k : ℕ) => (cx + (radius : ℤ) - 1 - (k : ℤ), cy + (radius : ℤ)))) ++
    ((List.range (2 * radius - 1)).map
      (fun (k : ℕ) => (cx - (radius : ℤ), cy + (radius : ℤ) - 1 - (k : ℤ))))

/-- Embedding of the placement while-loop of `remove_overlaps` for one point:
scan the spiral rings starting at radius `r`; `fuel` counts how many rings may
still be scanned (the source scans radii `0 .. 2 * grid_size` before giving
up).  Returns the first unoccupied cell found, if any. -/
def spiralSearchFrom (occ : Finset (ℤ × ℤ)) (c : ℤ × ℤ) (r : ℕ) : ℕ → Option (ℤ × ℤ)
  | 0 => none
  | fuel + 1 =>
    match (get_spiral_points c.1 c.2 r).find? (fun q => !decide (q ∈ occ)) with
    | some q => some q
    | none => spiralSearchFrom occ c (r + 1) fuel

/-- The outer placement loop of `remove_overlaps`, with the source's cap
quirk: `radius += 1` and the check `if radius > grid_size * 2` run even after
a successful find, so a cell found at radius exactly `cap` (= `2 * grid_size`)
is marked occupied but the recorded coordinate is overwritten with the
(already occupied) preferred cell.  Hence: a find at radii `0 .. cap - 1`
(the `spiralSearchFrom occ p 0 cap` call) is claimed and recorded; a find on
ring `cap` is marked occupied but the preferred cell is recorded; no find at
all records the preferred cell without marking anything. -/
def placeLoop (cap : ℕ) : List (ℤ × ℤ) → Finset (ℤ × ℤ) → List (ℤ × ℤ)
  | [], _ => []
  | p :: rest, occ =>
    match spiralSearchFrom occ p 0 cap with
    | some q => q :: placeLoop cap rest (insert q occ)
    | none =>
      match (get_spiral_points p.1 p.2 cap).find? (fun c => !decide (c ∈ occ)) with
      | some q => p :: placeLoop cap rest (insert q occ)
      | none => p :: placeLoop cap rest occ

/-- Minimum of a column, `np.min(coords, axis=0)` on a nonempty list. -/
def colMin : List ℚ → ℚ
  | [] => 0
  | x :: xs => xs.foldl min x

/-- Maximum of a column, `np.max(coords, axis=0)` on a nonempty list. -/
def colMax : List ℚ → ℚ
  | [] => 0
  | x :: xs => xs.foldl max x

/-- The preferred integer cell of every input point: min-max scaling of each
axis into `[0, G]` (with the zero-range guard `range_vals[range_vals == 0] =
1.0`) followed by `int(round(.))`. -/
def prefCells (coords : List (ℚ × ℚ)) (G : ℤ) : List (ℤ × ℤ) :=
  let xs := coords.map Prod.fst
  let ys := coords.map Prod.snd
  let minx := colMin xs
  let miny := colMin ys
  let rx0 := colMax xs - minx
  let ry0 := colMax ys - miny
  let rx := if rx0 = 0 then 1 else rx0
  let ry := if ry0 = 0 then 1 else ry0
  coords.map (fun p =>
    (pyRound ((p.1 - minx) / rx * (G : ℚ)), pyRound ((p.2 - miny) / ry * (G : ℚ))))

/-- Embedding of `remove_overlaps(coords, spread)` from `analyzer.py` /
`sorter.py`.  `s` stands for `math.sqrt(len(coords))`.  The grid side is
`grid_size s spread`; the placement loop scans radii `0 .. 2 * grid_size`,
where a find on the last ring (radius exactly `2 * grid_size`) is marked
occupied but the preferred cell is recorded, because the source increments
the radius and re-checks the cap even after a successful find. -/
def remove_overlaps (coords : List (ℚ × ℚ)) (spread s : ℚ) : List (ℤ × ℤ) :=
  if coords.length = 0 then []
  else
    placeLoop (2 * grid_size s spread).toNat
      (prefCells coords (grid_size s spread)) ∅

/-- Chebyshev distance between two grid cells. -/
def cheb (a b : ℤ × ℤ) : ℕ := max (a.1 - b.1).natAbs (a.2 - b.2).natAbs

/-- All spiral cells scanned for radii `0 .. maxR`, in scan order. -/
def spiralUpTo (c : ℤ × ℤ) (maxR : ℕ) : List (ℤ × ℤ) :=
  (List.range (maxR + 1)).flatMap (fun r => get_spiral_points c.1 c.2 r)

/-- One record of the viewer database (`database.json`): the fields of a
SampleRecord that the embedded operations read.  The remaining fields
(`cluster`, `rms`, `start_time`, `centroid`) are never consulted by the
operations verified here. -/
structure SampleRec where
  path : String
  x : ℚ
  y : ℚ
  category : String
  duration : ℚ
deriving DecidableEq

instance : Inhabited SampleRec := ⟨⟨"", 0, 0, "UNKNOWN", 0⟩⟩

/-- Data-space position of a record. -/
def ptOf (it : SampleRec) : ℚ × ℚ := (it.x, it.y)

/-- Squared Euclidean distance in the plane.  The source computes
`np.linalg.norm(a - b)`; since `Real.sqrt` is strictly monotone, comparisons
and argmins of the true Euclidean distances coincide with those of these
squares, which is what every embedded operation uses. -/
def dist2 (a b : ℚ × ℚ) : ℚ := (a.1 - b.1) ^ 2 + (a.2 - b.2) ^ 2

/-- Manhattan length of the difference of two screen positions: the model of
Qt `QPointF.manhattanLength()` applied to `nearest_scene_pos - scene_pos`. -/
def manhattan (a b : ℚ × ℚ) : ℚ := |a.1 - b.1| + |a.2 - b.2|

/-- Model of `np.argmin` (first index achieving the minimum) as a fold. -/
def argminAux : List ℚ → ℕ → ℕ → ℚ → ℕ
  | [], _, bi, _ => bi
  | v :: rest, i, bi, bv =>
    if v < bv then argminAux rest (i + 1) i v else argminAux rest (i + 1) bi bv

/-- Model of `np.argmin` on a list of values (0 on the empty list). -/
def argminQ : List ℚ → ℕ
  | [] => 0
  | v :: rest => argminAux rest 1 0 v

/-- Embedding of `find_nearest_point(scene_pos, threshold)` from `main.py`.
`toView` and `toScene` model the external view-box transforms
`mapSceneToView` / `mapViewToScene`; `visible` is the visible-points cache.
The data-space nearest point is selected by Euclidean distance (modelled by
its square, see `dist2`), then gated by the Manhattan screen distance against
the pixel threshold, exactly as in the source. -/
def find_nearest_point (visible : List SampleRec) (toView toScene : ℚ × ℚ → ℚ × ℚ)
    (scene_pos : ℚ × ℚ) (threshold : ℚ) : Option (String × (ℚ × ℚ) × ℚ) :=
  if visible.isEmpty then none
  else
    let mouse := toView scene_pos
    let dists := visible.map (fun it => dist2 (ptOf it) mouse)
    let mi := argminQ dists
    let it := visible.getD mi default
    let pixel_dist := manhattan (toScene (ptOf it)) scene_pos
    if pixel_dist < threshold then some (it.path, ptOf it, pixel_dist) else none

/-- The distances computed by `jump_to_random_neighbor`: squared data-space
Euclidean distance from the current position to every stored point. -/
def allDists (points : List (ℚ × ℚ)) (curr : ℚ × ℚ) : List ℚ :=
  points.map (fun p => dist2 p curr)

/-- The index list `idx` is a possible result of `np.argsort(dists)`: a
permutation of `0 .. dists.length - 1` along which the distances are
non-decreasing.  numpy's default sort is unstable, so the embedding quantifies
over every such permutation instead of fixing a tie-breaking rule. -/
def IsArgsort (dists : List ℚ) (idx : List ℕ) : Prop :=
  idx.Perm (List.range dists.length) ∧
    idx.Pairwise (fun i j => dists.getD i 0 ≤ dists.getD j 0)

/-- Embedding of `jump_to_random_neighbor` from `main.py`: take the sorted
index list (`np.argsort(dists)`), drop rank 0 and keep ranks `1 .. 50`
(`[1:51]`), then jump to the point whose index the random draw `k` selects
(`np.random.choice`, modelled by an arbitrary draw). -/
def jump_to_random_neighbor (points : List (ℚ × ℚ)) (idx : List ℕ) (k : ℕ) :
    Option (ℚ × ℚ) :=
  let nearest_indices := (idx.drop 1).take 50
  if nearest_indices.isEmpty then none
  else some (points.getD (nearest_indices.getD (k % nearest_indices.length) 0) (0, 0))

/-- One entry of the previously persisted database as `analyze_samples` reads
it back: an optional cached feature vector (`none` models a record without a
usable `features` key) plus the cached metadata. -/
structure CacheEntry where
  features : Option (List ℚ)
  rms : ℚ
  start_time : ℚ
  duration : ℚ
  category : String
deriving DecidableEq

/-- The result of a successful `extract_features` call (an external
collaborator, modelled as an oracle). -/
structure ExtractResult where
  features : List ℚ
  rms : ℚ
  start_time : ℚ
  duration : ℚ
deriving DecidableEq

/-- One prepared file of the feature-preparation loop of `analyze_samples`:
its path, the feature vector that will enter the feature matrix, and whether
it came from the cache (`fromCache = true`) or from a fresh extraction. -/
structure PreparedFile where
  path : String
  features : List ℚ
  fromCache : Bool
deriving DecidableEq

/-- The per-path body of the feature-preparation loop of `analyze_samples`
(`analyzer.py`): the cache is used exactly when the path was not found by this
scan, has an entry in the old database, and that entry has a feature vector;
otherwise the file is re-extracted, after an existence check, and dropped when
extraction fails. -/
def processPath (existing : List (String × CacheEntry)) (new_files : List String)
    (onDisk : String → Bool) (extract : String → Option ExtractResult)
    (f : String) : Option PreparedFile :=
  match new_files.contains f, List.lookup f existing with
  | false, some e =>
    match e.features with
    | some v => some ⟨f, v, true⟩
    | none =>
      if onDisk f then (extract f).map (fun r => ⟨f, r.features, false⟩) else none
  | _, _ =>
    if onDisk f then (extract f).map (fun r => ⟨f, r.features, false⟩) else none

/-- Embedding of the feature-preparation phase of `analyze_samples`
(`analyzer.py`): the working set is the sorted union of the previously known
paths and the freshly scanned paths, and each path is processed by
`processPath`.  `existing` is the parsed old database keyed by path,
`new_files` the scan result, `onDisk` models `os.path.exists` and `extract`
models `extract_features` (`none` = extraction failure). -/
def analyze_samples_prepare (existing : List (String × CacheEntry))
    (new_files : List String) (onDisk : String → Bool)
    (extract : String → Option ExtractResult) : List PreparedFile :=
  let all_paths := ((existing.map Prod.fst) ++ new_files).dedup.mergeSort
    (fun a b => decide (a ≤ b))
  all_paths.filterMap (processPath existing new_files onDisk extract)

/-- The category keys that have an assigned color in the viewer: the
`category_colors` palette of `main.py` plus the compatibility keys `TOP_LOOP`,
`PERC` and `OTHER` added in `update_plot`. -/
def knownColorCats : List String :=
  ["KICK", "SNARE", "CLAP", "HIHAT", "CRASH", "TOM", "BASS", "GUITAR",
   "PIANO", "LOOP", "FX", "UNKNOWN", "TOP_LOOP", "PERC", "OTHER"]

/-- The per-point visibility predicate of `update_plot` (`main.py`): the
favorites-only filter, the one-shot duration cutoff, and the category filter
with its fallback rule (a category with no assigned color is shown whenever
`UNKNOWN` is shown). -/
def pointVisible (favorites : Finset String) (filter_favorites_only : Bool)
    (filter_oneshot : Bool) (visible_categories : Finset String)
    (it : SampleRec) : Bool :=
  (!filter_favorites_only || decide (it.path ∈ favorites)) &&
  (!filter_oneshot || !decide (it.duration > 2)) &&
  (decide (it.category ∈ visible_categories) ||
    (decide ("UNKNOWN" ∈ visible_categories) &&
      !(knownColorCats.contains it.category)))

/-- Embedding of the visible-set construction of `update_plot` (`main.py`):
the records that survive all three filters, in order. -/
def update_plot_visible (records : List SampleRec) (favorites : Finset String)
    (filter_favorites_only filter_oneshot : Bool)
    (visible_categories : Finset String) : List SampleRec :=
  records.filter (pointVisible favorites filter_favorites_only filter_oneshot
    visible_categories)

/-- Embedding of `set_category_visibility(category, visible)` from `main.py`:
insert or discard the category in the visible-category set. -/
def set_category_visibility (visible_categories : Finset String)
    (category : String) (visible : Bool) : Finset String :=
  if visible then insert category visible_categories
  else visible_categories.erase category

theorem lowerCode_idem (c : ℕ) : lowerCode (lowerCode c) = lowerCode c := by
  unfold lowerCode
  split_ifs <;> omega

theorem lowerCode_ne_sep (c : ℕ) : (decide (lowerCode c ≠ 47)) = (decide (c ≠ 47)) := by
  rw [decide_eq_decide]
  unfold lowerCode
  split_ifs <;> omega

theorem basename_strLower (s : List ℕ) :
    basenameCodes (strLower s) = strLower (basenameCodes s) := by
  unfold basenameCodes strLower
  rw [← List.map_reverse, List.takeWhile_map, ← List.map_reverse]
  have hp : ((fun c => decide (c ≠ 47)) ∘ lowerCode) = (fun c : ℕ => decide (c ≠ 47)) :=
    funext fun c => lowerCode_ne_sep c
  rw [hp]

theorem strLower_idem (s : List ℕ) : strLower (strLower s) = strLower s := by
  unfold strLower
  rw [List.map_map]
  exact List.map_congr_left fun c _ => lowerCode_idem c

/-- Claim C3: `classify_sample` is a pure function of the filename and the
duration (purity is structural in the embedding), it is case-insensitive on
the filename (lowering the input path does not change the result), and it maps
the four test vectors of the specification to `BASS`, `KICK`, `LOOP` and
`UNKNOWN` respectively. -/
theorem classify_sample_spec :
    (∀ (p : List ℕ) (d : ℚ), classify_sample p d = classify_sample (strLower p) d)
    ∧ classify_sample (strCodes "kick_long.wav") 1.2 = "BASS"
    ∧ classify_sample (strCodes "kick_01.wav") 0.3 = "KICK"
    ∧ classify_sample (strCodes "house_loop_128bpm.wav") 0.5 = "LOOP"
    ∧ classify_sample (strCodes "unknown_sound.wav") 1 = "UNKNOWN" := by
  refine ⟨?_, ?_, ?_, ?_, ?_⟩
  · intro p d
    unfold classify_sample
    rw [basename_strLower, strLower_idem]
  · have h4 : (decide ((1.2 : ℚ) > 4)) = false := by
      simp only [decide_eq_false_iff_not]
      norm_num
    have h8 : (decide ((1.2 : ℚ) > 0.8)) = true := by
      simp only [decide_eq_true_eq]
      norm_num
    simp only [classify_sample, classifyName, h4, h8]
    rfl
  · have h4 : (decide ((0.3 : ℚ) > 4)) = false := by
      simp only [decide_eq_false_iff_not]
      norm_num
    have h8 : (decide ((0.3 : ℚ) > 0.8)) = false := by
      simp only [decide_eq_false_iff_not]
      norm_num
    simp only [classify_sample, classifyName, h4, h8]
    rfl
  · have h4 : (decide ((0.5 : ℚ) > 4)) = false := by
      simp only [decide_eq_false_iff_not]
      norm_num
    simp only [classify_sample, classifyName, h4]
    rfl
  · decide

/-- Claim C9 counterexample: at `n = 441` (so `sqrt n = 21`) and
`spread = 4.9` the source computes `int(21 * 4.9) = int(102.9) = 102`, while
rounding to the nearest integer would give `103`; the claimed formula with
`round` is therefore false at this input. -/
theorem grid_size_round_ctex :
    (21 : ℚ) * 21 = ((441 : ℕ) : ℚ) ∧
      grid_size 21 (4.9 : ℚ) ≠ max 100 (round ((21 : ℚ) * (4.9 : ℚ))) := by
  constructor
  · norm_num
  · have h1 : grid_size 21 (4.9 : ℚ) = 102 := by
      unfold grid_size pyInt
      norm_num
    have h2 : round ((21 : ℚ) * (4.9 : ℚ)) = 103 := by
      rw [round_eq]
      norm_num
    rw [h1, h2]
    decide

/-- Claim C9 (amended): for every `n ≥ 1` and `spread ≥ 0`, the grid side
length equals `max 100 ⌊sqrt n * spread⌋` — truncation (`int(...)`) instead of
rounding to the nearest integer; `s` is constrained to be the exact square
root of `n`. -/
theorem grid_size_floor_spec (n : ℕ) (s spread : ℚ) (hn : 1 ≤ n)
    (hs : s * s = (n : ℚ)) (hs0 : 0 ≤ s) (hsp : 0 ≤ spread) :
    grid_size s spread = max 100 ⌊s * spread⌋ := by
  unfold grid_size pyInt
  rw [if_neg (not_lt.mpr (mul_nonneg hs0 hsp))]
  rcases le_or_lt 100 ⌊s * spread⌋ with h | h
  · rw [if_neg (not_lt.mpr h), max_eq_right h]
  · rw [if_pos h, max_eq_left (le_of_lt h)]

/-- Witness for `grid_size_floor_spec` at `n = 441`, `s = 21`,
`spread = 4.9`. -/
theorem grid_size_floor_spec_witness :
    1 ≤ 441 ∧ (21 : ℚ) * 21 = ((441 : ℕ) : ℚ) ∧ (0 : ℚ) ≤ 21 ∧ (0 : ℚ) ≤ (4.9 : ℚ) ∧
      grid_size 21 (4.9 : ℚ) = max 100 ⌊(21 : ℚ) * (4.9 : ℚ)⌋ :=
  ⟨by decide, by norm_num, by decide, by norm_num,
    grid_size_floor_spec 441 21 (4.9 : ℚ) (by decide) (by norm_num) (by decide)
      (by norm_num)⟩

/-- Claim C8 counterexample: with one record of the unlisted category `WEIRD`
and `UNKNOWN` visible, the record is visible (by the color-fallback rule of
`update_plot`); removing the category `UNKNOWN` from the visible set hides it,
although its category is not `UNKNOWN` — so removing a category does not leave
points of every other category unchanged. -/
theorem visibility_unknown_ctex :
    ("WEIRD" : String) ≠ "UNKNOWN"
    ∧ update_plot_visible [⟨"w.wav", 0, 0, "WEIRD", 1⟩] ∅ false false
        ({"UNKNOWN"} : Finset String) = [⟨"w.wav", 0, 0, "WEIRD", 1⟩]
    ∧ update_plot_visible [⟨"w.wav", 0, 0, "WEIRD", 1⟩] ∅ false false
        (set_category_visibility {"UNKNOWN"} "UNKNOWN" false) = [] := by
  refine ⟨by decide, ?_, ?_⟩ <;> decide

/-- Claim C8 (amended): for every category `C` of the known color palette
other than `UNKNOWN`, removing `C` from the visible-category set removes
exactly the visible points whose category is `C` and leaves every other
point's visibility unchanged (removing `UNKNOWN` additionally hides all points
of categories outside the palette, by the fallback rule); and enabling the
favorites-only filter with an empty FavoriteSet yields an empty visible
set. -/
theorem visibility_mask_spec (records : List SampleRec) (favorites : Finset String)
    (fFav fOne : Bool) (visCats : Finset String) (C : String)
    (hC : C ∈ knownColorCats) (hCne : C ≠ "UNKNOWN") :
    (update_plot_visible records favorites fFav fOne
        (set_category_visibility visCats C false)
      = (update_plot_visible records favorites fFav fOne visCats).filter
          (fun it => !decide (it.category = C)))
    ∧ update_plot_visible records ∅ true fOne visCats = [] := by
  constructor
  · unfold update_plot_visible set_category_visibility
    rw [if_neg (by simp)]
    rw [List.filter_filter]
    apply List.filter_congr
    intro it _
    by_cases hcat : it.category = C
    · simp [pointVisible, hcat, Finset.mem_erase]
      intros
      exact hC
    · simp [pointVisible, Finset.mem_erase, hcat, Ne.symm hCne]
  · unfold update_plot_visible
    apply List.filter_eq_nil_iff.mpr
    intro it _
    simp [pointVisible]

/-- Witness for `visibility_mask_spec` with one `KICK` record and
`C = KICK`. -/
theorem visibility_mask_spec_witness :
    ("KICK" : String) ∈ knownColorCats ∧ ("KICK" : String) ≠ "UNKNOWN" ∧
    ((update_plot_visible [⟨"k.wav", 0, 0, "KICK", 1⟩] ∅ false false
        (set_category_visibility {"KICK"} "KICK" false)
      = (update_plot_visible [⟨"k.wav", 0, 0, "KICK", 1⟩] ∅ false false
          ({"KICK"} : Finset String)).filter (fun it => !decide (it.category = "KICK")))
    ∧ update_plot_visible [⟨"k.wav", 0, 0, "KICK", 1⟩] ∅ true false
        ({"KICK"} : Finset String) = []) :=
  ⟨by decide, by decide,
    visibility_mask_spec [⟨"k.wav", 0, 0, "KICK", 1⟩] ∅ false false {"KICK"} "KICK"
      (by decide) (by decide)⟩
theorem processPath_path (existing : List (String × CacheEntry))
    (new_files : List String) (onDisk : String → Bool)
    (extract : String → Option ExtractResult) (f : String) (pf : PreparedFile)
    (h : processPath existing new_files onDisk extract f = some pf) :
    pf.path = f := by
  unfold processPath at h
  rcases hc : new_files.contains f with _ | _ <;>
    rcases hl : List.lookup f existing with _ | e <;>
      simp only [hc, hl] at h
  case false.none =>
    split at h
    · rcases hx : extract f with _ | r <;> simp [hx] at h
      rw [← h]
    · exact absurd h (by simp)
  case false.some =>
    rcases hf : e.features with _ | v <;> simp only [hf] at h
    · split at h
      · rcases hx : extract f with _ | r <;> simp [hx] at h
        rw [← h]
      · exact absurd h (by simp)
    · rw [← Option.some_inj.mp h]
  case true.none =>
    split at h
    · rcases hx : extract f with _ | r <;> simp [hx] at h
      rw [← h]
    · exact absurd h (by simp)
  case true.some =>
    split at h
    · rcases hx : extract f with _ | r <;> simp [hx] at h
      rw [← h]
    · exact absurd h (by simp)

theorem mem_all_paths_iff (existing : List (String × CacheEntry))
    (new_files : List String) (f : String) :
    f ∈ ((existing.map Prod.fst) ++ new_files).dedup.mergeSort
        (fun a b => decide (a ≤ b))
      ↔ (∃ e, (f, e) ∈ existing) ∨ f ∈ new_files := by
  rw [(List.mergeSort_perm _ _).mem_iff, List.mem_dedup, List.mem_append]
  constructor
  · rintro (h | h)
    · left
      rcases List.mem_map.mp h with ⟨⟨a, e⟩, hm, rfl⟩
      exact ⟨e, hm⟩
    · exact Or.inr h
  · rintro (⟨e, h⟩ | h)
    · exact Or.inl (List.mem_map.mpr ⟨(f, e), h, rfl⟩)
    · exact Or.inr h

theorem lookup_some_mem {α β : Type} [BEq α] [LawfulBEq α] (a : α) (b : β)
    (l : List (α × β)) (h : List.lookup a l = some b) : (a, b) ∈ l := by
  induction l with
  | nil => simp [List.lookup] at h
  | cons p t ih =>
    rw [List.lookup] at h
    rcases hb : (a == p.1) with _ | _
    · rw [hb] at h
      exact List.mem_cons_of_mem _ (ih h)
    · rw [hb] at h
      have : p.1 = a := (eq_of_beq hb).symm
      have hb2 : p = (a, b) := by
        rcases p with ⟨p1, p2⟩
        simp only [Option.some_inj] at h
        simp at this
        simp [this, ← h]
      rw [hb2]
      exact List.mem_cons_self _ _

/-- Claim C6 counterexample: a second run over an unchanged directory (the
single file `a.wav` is on disk, in the scan result, and has a cached feature
vector `[1]`) re-extracts the file — the output comes from the extractor
(`fromCache = false`, vector `[2]`), not from the cache, because a freshly
scanned file always forces re-extraction. -/
theorem cache_reuse_ctex :
    analyze_samples_prepare [("a.wav", ⟨some [1], 0, 0, 1, "KICK"⟩)] ["a.wav"]
        (fun _ => true) (fun _ => some ⟨[2], 0, 0, 1⟩)
      = [⟨"a.wav", [2], false⟩] := by
  show ((((([("a.wav", (⟨some [1], 0, 0, 1, "KICK"⟩ : CacheEntry))].map Prod.fst)
      ++ ["a.wav"]).dedup).mergeSort (fun a b => decide (a ≤ b))).filterMap
        (processPath _ _ _ _)) = _
  rw [show (((([("a.wav", (⟨some [1], 0, 0, 1, "KICK"⟩ : CacheEntry))].map Prod.fst)
      ++ ["a.wav"]).dedup)) = ["a.wav"] from by decide, List.mergeSort_singleton]
  rfl

/-- Claim C6 (amended): on a rerun, every file found by the scan is
re-extracted (the trust-new-scans-over-cache rule), regardless of any cached
entry: every output record for such a file carries the freshly extracted
vector with `fromCache = false`, and the file is processed whenever it is on
disk and extraction succeeds.  Cached vectors are reused only for database
paths not found by the scan; the reduction and clustering stages still run on
the prepared features. -/
theorem rerun_reextracts_spec (existing : List (String × CacheEntry))
    (new_files : List String) (onDisk : String → Bool)
    (extract : String → Option ExtractResult) (f : String) (r : ExtractResult)
    (hf : f ∈ new_files) (hd : onDisk f = true) (hx : extract f = some r) :
    (∀ pf ∈ analyze_samples_prepare existing new_files onDisk extract,
        pf.path = f → pf.fromCache = false ∧ pf.features = r.features)
    ∧ (⟨f, r.features, false⟩ : PreparedFile)
        ∈ analyze_samples_prepare existing new_files onDisk extract := by
  have hcontains : new_files.contains f = true := List.elem_eq_true_of_mem hf
  have hproc : processPath existing new_files onDisk extract f
      = some ⟨f, r.features, false⟩ := by
    unfold processPath
    rw [hcontains, hd, hx]
    rcases List.lookup f existing with _ | e <;> rfl
  constructor
  · intro pf hpf hpath
    rcases List.mem_filterMap.mp hpf with ⟨a, _, hpa⟩
    have ha : a = f := by rw [← hpath, processPath_path _ _ _ _ _ _ hpa]
    rw [ha, hproc] at hpa
    rw [← Option.some_inj.mp hpa]
    exact ⟨rfl, rfl⟩
  · exact List.mem_filterMap.mpr
      ⟨f, (mem_all_paths_iff existing new_files f).mpr (Or.inr hf), hproc⟩

/-- Witness for `rerun_reextracts_spec`: one scanned file, empty cache. -/
theorem rerun_reextracts_spec_witness :
    ("a.wav" : String) ∈ ["a.wav"] ∧
    ((∀ pf ∈ analyze_samples_prepare [] ["a.wav"] (fun _ => true)
          (fun _ => some ⟨[2], 0, 0, 1⟩),
        pf.path = "a.wav" → pf.fromCache = false ∧ pf.features = [2])
    ∧ (⟨"a.wav", [2], false⟩ : PreparedFile)
        ∈ analyze_samples_prepare [] ["a.wav"] (fun _ => true)
            (fun _ => some ⟨[2], 0, 0, 1⟩)) :=
  ⟨by decide,
    rerun_reextracts_spec [] ["a.wav"] (fun _ => true) (fun _ => some ⟨[2], 0, 0, 1⟩)
      "a.wav" ⟨[2], 0, 0, 1⟩ (by decide) rfl rfl⟩

/-- Claim C7 counterexample: a path present only in the old database and
absent from disk (`onDisk` is constantly false) is carried forward into the
output with its cached feature vector, not skipped: the pipeline only
re-checks existence on the re-extraction branch. -/
theorem stale_path_ctex :
    analyze_samples_prepare [("gone.wav", ⟨some [7], 0, 0, 1, "KICK"⟩)] []
        (fun _ => false) (fun _ => none)
      = [⟨"gone.wav", [7], true⟩] := by
  show ((((([("gone.wav", (⟨some [7], 0, 0, 1, "KICK"⟩ : CacheEntry))].map Prod.fst)
      ++ ([] : List String)).dedup).mergeSort (fun a b => decide (a ≤ b))).filterMap
        (processPath _ _ _ _)) = _
  rw [show (((([("gone.wav", (⟨some [7], 0, 0, 1, "KICK"⟩ : CacheEntry))].map Prod.fst)
      ++ ([] : List String)).dedup)) = ["gone.wav"] from by decide,
    List.mergeSort_singleton]
  rfl

/-- Claim C7 (amended): a path that appears in the previously persisted
database but is absent from disk is carried forward with its cached feature
vector whenever the cached entry has one; only when the cached entry lacks a
feature vector is file existence re-checked, and the path then contributes no
record. -/
theorem stale_path_spec (existing : List (String × CacheEntry))
    (new_files : List String) (onDisk : String → Bool)
    (extract : String → Option ExtractResult) (f : String) (e : CacheEntry)
    (hnew : f ∉ new_files) (hlk : List.lookup f existing = some e)
    (hd : onDisk f = false) :
    (∀ v, e.features = some v →
        (⟨f, v, true⟩ : PreparedFile)
          ∈ analyze_samples_prepare existing new_files onDisk extract)
    ∧ (e.features = none →
        ∀ pf ∈ analyze_samples_prepare existing new_files onDisk extract,
          pf.path ≠ f) := by
  have hcontains : new_files.contains f = false := by
    rcases hb : new_files.contains f with _ | _
    · rfl
    · exact absurd (List.mem_of_elem_eq_true hb) hnew
  constructor
  · intro v hv
    have hproc : processPath existing new_files onDisk extract f
        = some ⟨f, v, true⟩ := by
      unfold processPath
      rw [hcontains, hlk]
      show (match e.features with
        | some w => some (⟨f, w, true⟩ : PreparedFile)
        | none => if onDisk f then (extract f).map
            (fun r => (⟨f, r.features, false⟩ : PreparedFile)) else none)
        = some (⟨f, v, true⟩ : PreparedFile)
      rw [hv]
    exact List.mem_filterMap.mpr
      ⟨f, (mem_all_paths_iff existing new_files f).mpr
        (Or.inl ⟨e, lookup_some_mem f e existing hlk⟩), hproc⟩
  · intro hv pf hpf hpath
    rcases List.mem_filterMap.mp hpf with ⟨a, _, hpa⟩
    have ha : a = f := by rw [← hpath, processPath_path _ _ _ _ _ _ hpa]
    rw [ha] at hpa
    have hnone : processPath existing new_files onDisk extract f = none := by
      unfold processPath
      rw [hcontains, hlk]
      show (match e.features with
        | some w => some (⟨f, w, true⟩ : PreparedFile)
        | none => if onDisk f then (extract f).map
            (fun r => (⟨f, r.features, false⟩ : PreparedFile)) else none)
        = none
      rw [hv, hd]
      rfl
    rw [hnone] at hpa
    exact Option.noConfusion hpa

/-- Witness for `stale_path_spec`: one stale cached path, nothing on disk. -/
theorem stale_path_spec_witness :
    ("gone.wav" : String) ∉ ([] : List String) ∧
    ((∀ v, (⟨some [7], 0, 0, 1, "KICK"⟩ : CacheEntry).features = some v →
        (⟨"gone.wav", v, true⟩ : PreparedFile)
          ∈ analyze_samples_prepare [("gone.wav", ⟨some [7], 0, 0, 1, "KICK"⟩)] []
              (fun _ => false) (fun _ => none))
    ∧ ((⟨some [7], 0, 0, 1, "KICK"⟩ : CacheEntry).features = none →
        ∀ pf ∈ analyze_samples_prepare [("gone.wav", ⟨some [7], 0, 0, 1, "KICK"⟩)] []
            (fun _ => false) (fun _ => none),
          pf.path ≠ "gone.wav")) :=
  ⟨by decide,
    stale_path_spec [("gone.wav", ⟨some [7], 0, 0, 1, "KICK"⟩)] []
      (fun _ => false) (fun _ => none) "gone.wav" ⟨some [7], 0, 0, 1, "KICK"⟩
      (by decide) rfl rfl⟩
theorem grid_size_ge_100 (s spread : ℚ) : 100 ≤ grid_size s spread := by
  have h : grid_size s spread
      = if pyInt (s * spread) < 100 then 100 else pyInt (s * spread) := rfl
  rw [h]
  split_ifs with hlt <;> omega

theorem grid_size_two_five : grid_size 2 5 = 100 := by
  have h : grid_size 2 5 = if pyInt (2 * 5) < 100 then 100 else pyInt (2 * 5) := rfl
  rw [h]
  norm_num [pyInt]

theorem mem_map_range (n : ℕ) (f : ℕ → ℤ × ℤ) (p : ℤ × ℤ) :
    p ∈ (List.range n).map f ↔ ∃ k, k < n ∧ f k = p := by
  constructor
  · intro h
    rcases List.mem_map.mp h with ⟨k, hk, hf⟩
    exact ⟨k, List.mem_range.mp hk, hf⟩
  · rintro ⟨k, hk, hf⟩
    exact List.mem_map.mpr ⟨k, List.mem_range.mpr hk, hf⟩

theorem mem_spiral_iff (cx cy : ℤ) (r : ℕ) (hr : 1 ≤ r) (px py : ℤ) :
    (px, py) ∈ get_spiral_points cx cy r ↔ cheb (px, py) (cx, cy) = r := by
  unfold get_spiral_points cheb
  rw [if_neg (by omega), List.mem_append, List.mem_append, List.mem_append,
    mem_map_range, mem_map_range, mem_map_range, mem_map_range]
  constructor
  · rintro (((⟨k, hk, heq⟩ | ⟨k, hk, heq⟩) | ⟨k, hk, heq⟩) | ⟨k, hk, heq⟩) <;>
    · rw [Prod.mk.injEq] at heq
      omega
  · intro h
    by_cases h1 : py - cy = -(r : ℤ)
    · refine Or.inl (Or.inl (Or.inl ⟨(px - cx + r).toNat, by omega, ?_⟩))
      rw [Prod.mk.injEq]
      omega
    · by_cases h2 : px - cx = (r : ℤ)
      · refine Or.inl (Or.inl (Or.inr ⟨(py - cy + r - 1).toNat, by omega, ?_⟩))
        rw [Prod.mk.injEq]
        omega
      · by_cases h3 : py - cy = (r : ℤ)
        · refine Or.inl (Or.inr ⟨(cx + r - 1 - px).toNat, by omega, ?_⟩)
          rw [Prod.mk.injEq]
          omega
        · refine Or.inr ⟨(cy + r - 1 - py).toNat, by omega, ?_⟩
          rw [Prod.mk.injEq]
          omega

theorem cheb_of_mem_spiral (cx cy : ℤ) (r : ℕ) (p : ℤ × ℤ)
    (h : p ∈ get_spiral_points cx cy r) : cheb p (cx, cy) = r := by
  obtain ⟨px, py⟩ := p
  rcases Nat.eq_zero_or_pos r with rfl | hr
  · unfold get_spiral_points at h
    rw [if_pos rfl] at h
    simp only [List.mem_singleton, Prod.mk.injEq] at h
    unfold cheb
    omega
  · exact (mem_spiral_iff cx cy r hr px py).mp h

theorem mem_spiral_cheb (cx cy : ℤ) (p : ℤ × ℤ) :
    p ∈ get_spiral_points cx cy (cheb p (cx, cy)) := by
  obtain ⟨px, py⟩ := p
  rcases Nat.eq_zero_or_pos (cheb (px, py) (cx, cy)) with h0 | hr
  · rw [h0]
    unfold get_spiral_points
    rw [if_pos rfl]
    unfold cheb at h0
    simp only [List.mem_singleton, Prod.mk.injEq]
    omega
  · exact (mem_spiral_iff cx cy _ hr px py).mpr rfl

theorem spiralSearchFrom_some_spec (occ : Finset (ℤ × ℤ)) (c : ℤ × ℤ) :
    ∀ (fuel r : ℕ) (q : ℤ × ℤ), spiralSearchFrom occ c r fuel = some q →
      q ∉ occ ∧ ∃ j, j < fuel ∧ q ∈ get_spiral_points c.1 c.2 (r + j) := by
  intro fuel
  induction fuel with
  | zero =>
    intro r q h
    simp [spiralSearchFrom] at h
  | succ n ih =>
    intro r q h
    simp only [spiralSearchFrom] at h
    rcases hf : (get_spiral_points c.1 c.2 r).find? (fun x => !decide (x ∈ occ)) with _ | q2
    · rw [hf] at h
      obtain ⟨hq, j, hj, hmem⟩ := ih (r + 1) q h
      refine ⟨hq, j + 1, by omega, ?_⟩
      rwa [show r + (j + 1) = r + 1 + j by omega]
    · rw [hf] at h
      have hqq : q2 = q := Option.some_inj.mp h
      subst hqq
      have hp := List.find?_some hf
      refine ⟨by simpa using hp, 0, by omega, ?_⟩
      rw [Nat.add_zero]
      exact List.mem_of_find?_eq_some hf

theorem spiralSearchFrom_isSome (occ : Finset (ℤ × ℤ)) (c : ℤ × ℤ) :
    ∀ (fuel r : ℕ),
      (∃ j, j < fuel ∧ ∃ p ∈ get_spiral_points c.1 c.2 (r + j), p ∉ occ) →
      (spiralSearchFrom occ c r fuel).isSome := by
  intro fuel
  induction fuel with
  | zero =>
    rintro r ⟨j, hj, _⟩
    omega
  | succ n ih =>
    rintro r ⟨j, hj, p, hp, hpocc⟩
    simp only [spiralSearchFrom]
    rcases hf : (get_spiral_points c.1 c.2 r).find? (fun x => !decide (x ∈ occ)) with _ | q2
    · apply ih (r + 1)
      rcases Nat.eq_zero_or_pos j with rfl | hjpos
      · exfalso
        have hin := List.find?_eq_none.mp hf p (by rwa [Nat.add_zero] at hp)
        simp only [Bool.not_eq_true, decide_eq_false_iff_not, Decidable.not_not] at hin
        exact hpocc (by simpa using hin)
      · exact ⟨j - 1, by omega, p, by rwa [show r + 1 + (j - 1) = r + j by omega], hpocc⟩
    · rfl

theorem exists_free_cell (occ : Finset (ℤ × ℤ)) (c : ℤ × ℤ) (maxR : ℕ)
    (h : occ.card < (2 * maxR + 1) ^ 2) :
    ∃ p, cheb p c ≤ maxR ∧ p ∉ occ := by
  by_contra hc
  push_neg at hc
  have hsub : (Finset.Icc (c.1 - maxR) (c.1 + maxR) ×ˢ
      Finset.Icc (c.2 - maxR) (c.2 + maxR)) ⊆ occ := by
    intro p hp
    rw [Finset.mem_product, Finset.mem_Icc, Finset.mem_Icc] at hp
    refine hc p ?_
    unfold cheb
    omega
  have hcard := Finset.card_le_card hsub
  rw [Finset.card_product, Int.card_Icc, Int.card_Icc] at hcard
  rw [show (c.1 + maxR + 1 - (c.1 - maxR)).toNat = 2 * maxR + 1 by omega,
    show (c.2 + maxR + 1 - (c.2 - maxR)).toNat = 2 * maxR + 1 by omega] at hcard
  rw [pow_two] at h
  omega

theorem placeLoop_nodup (maxR : ℕ) :
    ∀ (ps : List (ℤ × ℤ)) (occ : Finset (ℤ × ℤ)),
      occ.card + ps.length ≤ (2 * maxR + 1) ^ 2 →
      (placeLoop (maxR + 1) ps occ).Nodup
      ∧ ∀ q ∈ placeLoop (maxR + 1) ps occ, q ∉ occ := by
  intro ps
  induction ps with
  | nil =>
    intro occ h
    simp [placeLoop]
  | cons p rest ih =>
    intro occ h
    have hfree : ∃ x, cheb x p ≤ maxR ∧ x ∉ occ := by
      apply exists_free_cell occ p maxR
      simp only [List.length_cons] at h
      omega
    obtain ⟨x, hxc, hxo⟩ := hfree
    have hsome : (spiralSearchFrom occ p 0 (maxR + 1)).isSome := by
      apply spiralSearchFrom_isSome occ p (maxR + 1) 0
      refine ⟨cheb x p, by omega, x, ?_, hxo⟩
      rw [Nat.zero_add]
      exact mem_spiral_cheb p.1 p.2 x
    obtain ⟨q, hq⟩ := Option.isSome_iff_exists.mp hsome
    simp only [placeLoop, hq]
    obtain ⟨hqocc, _⟩ := spiralSearchFrom_some_spec occ p (maxR + 1) 0 q hq
    have hrec := ih (insert q occ) (by
      have hci := Finset.card_insert_le q occ
      simp only [List.length_cons] at h
      omega)
    refine ⟨List.nodup_cons.mpr ⟨fun hmem => ?_, hrec.1⟩, ?_⟩
    · exact (hrec.2 q hmem) (Finset.mem_insert_self q occ)
    · intro y hy
      rcases List.mem_cons.mp hy with rfl | hy2
      · exact hqocc
      · exact fun hyo => (hrec.2 y hy2) (Finset.mem_insert_of_mem hyo)

/-- Claim C1 (amended): for every input list of `n` continuous coordinates,
every `spread ≥ 0` and the grid side `G` computed in step 1 (with `s = sqrt n`
passed exactly), the `n` integer cells returned by `remove_overlaps` are
pairwise distinct provided `n ≤ (2·(2G−1)+1)^2`: under this bound the spiral
search always finds a free cell at some radius at most `2G − 1`, where a find
is honored; the claimed bound `(2·(2G)+1)^2` of the original claim fails
because a find at radius exactly `2G` is overwritten with the occupied
preferred cell (see `remove_overlaps_collision_ctex`). -/
theorem remove_overlaps_no_collision (coords : List (ℚ × ℚ)) (spread s : ℚ)
    (hsp : 0 ≤ spread) (hs0 : 0 ≤ s) (hs : s * s = (coords.length : ℚ))
    (hn : (coords.length : ℤ) ≤ (2 * (2 * grid_size s spread - 1) + 1) ^ 2) :
    (remove_overlaps coords spread s).Nodup := by
  unfold remove_overlaps
  split
  · exact List.nodup_nil
  · have hG := grid_size_ge_100 s spread
    have hT : (((2 * grid_size s spread).toNat - 1 : ℕ) : ℤ)
        = 2 * grid_size s spread - 1 := by omega
    rw [show (2 * grid_size s spread).toNat
        = ((2 * grid_size s spread).toNat - 1) + 1 by omega]
    refine (placeLoop_nodup ((2 * grid_size s spread).toNat - 1)
      (prefCells coords (grid_size s spread)) ∅ ?_).1
    rw [Finset.card_empty]
    have hlen : (prefCells coords (grid_size s spread)).length = coords.length := by
      unfold prefCells
      simp
    rw [hlen, Nat.zero_add]
    have hcast : (((2 * ((2 * grid_size s spread).toNat - 1) + 1) ^ 2 : ℕ) : ℤ)
        = (2 * (2 * grid_size s spread - 1) + 1) ^ 2 := by
      push_cast [hT]
      ring
    exact Nat.cast_le.mp (by rw [hcast]; exact hn)

/-- Witness for `remove_overlaps_no_collision`: four points, `spread = 5`,
`s = 2 = sqrt 4`, grid side 100. -/
theorem remove_overlaps_no_collision_witness :
    (0 : ℚ) ≤ 5 ∧ (0 : ℚ) ≤ 2
    ∧ (2 : ℚ) * 2 = (([((0:ℚ), (0:ℚ)), (1, 1), (2, 2), (3, 3)] : List (ℚ × ℚ)).length : ℚ)
    ∧ ((([((0:ℚ), (0:ℚ)), (1, 1), (2, 2), (3, 3)] : List (ℚ × ℚ)).length : ℤ)
        ≤ (2 * (2 * grid_size 2 5 - 1) + 1) ^ 2)
    ∧ (remove_overlaps [((0:ℚ), (0:ℚ)), (1, 1), (2, 2), (3, 3)] 5 2).Nodup :=
  ⟨by decide, by decide, by norm_num, by rw [grid_size_two_five]; norm_num,
    remove_overlaps_no_collision _ 5 2 (by decide) (by decide) (by norm_num)
      (by rw [grid_size_two_five]; norm_num)⟩

theorem spiral_nodup (cx cy : ℤ) (r : ℕ) (hr : 1 ≤ r) :
    (get_spiral_points cx cy r).Nodup := by
  unfold get_spiral_points
  rw [if_neg (by omega)]
  have memA : ∀ p ∈ (List.range (2 * r + 1)).map
      (fun (k : ℕ) => (cx - (r : ℤ) + (k : ℤ), cy - (r : ℤ))),
      p.2 = cy - (r : ℤ) ∧ cx - (r : ℤ) ≤ p.1 ∧ p.1 ≤ cx + (r : ℤ) := by
    intro p hp
    obtain ⟨k, hk, rfl⟩ := (mem_map_range _ _ _).mp hp
    exact ⟨rfl, by omega, by omega⟩
  have memB : ∀ p ∈ (List.range (2 * r)).map
      (fun (k : ℕ) => (cx + (r : ℤ), cy - (r : ℤ) + 1 + (k : ℤ))),
      p.1 = cx + (r : ℤ) ∧ cy - (r : ℤ) + 1 ≤ p.2 ∧ p.2 ≤ cy + (r : ℤ) := by
    intro p hp
    obtain ⟨k, hk, rfl⟩ := (mem_map_range _ _ _).mp hp
    exact ⟨rfl, by omega, by omega⟩
  have memC : ∀ p ∈ (List.range (2 * r)).map
      (fun (k : ℕ) => (cx + (r : ℤ) - 1 - (k : ℤ), cy + (r : ℤ))),
      p.2 = cy + (r : ℤ) ∧ cx - (r : ℤ) ≤ p.1 ∧ p.1 ≤ cx + (r : ℤ) - 1 := by
    intro p hp
    obtain ⟨k, hk, rfl⟩ := (mem_map_range _ _ _).mp hp
    exact ⟨rfl, by omega, by omega⟩
  have memD : ∀ p ∈ (List.range (2 * r - 1)).map
      (fun (k : ℕ) => (cx - (r : ℤ), cy + (r : ℤ) - 1 - (k : ℤ))),
      p.1 = cx - (r : ℤ) ∧ cy - (r : ℤ) + 1 ≤ p.2 ∧ p.2 ≤ cy + (r : ℤ) - 1 := by
    intro p hp
    obtain ⟨k, hk, rfl⟩ := (mem_map_range _ _ _).mp hp
    exact ⟨rfl, by omega, by omega⟩
  rw [List.nodup_append, List.nodup_append, List.nodup_append]
  refine ⟨⟨⟨?_, ?_, ?_⟩, ?_, ?_⟩, ?_, ?_⟩
  · exact List.Nodup.map
      (fun a b hab => by simp only [Prod.mk.injEq] at hab; omega)
      (List.nodup_range (2 * r + 1))
  · exact List.Nodup.map
      (fun a b hab => by simp only [Prod.mk.injEq] at hab; omega)
      (List.nodup_range (2 * r))
  · intro p hpA hpB
    have h1 := memA p hpA
    have h2 := memB p hpB
    omega
  · exact List.Nodup.map
      (fun a b hab => by simp only [Prod.mk.injEq] at hab; omega)
      (List.nodup_range (2 * r))
  · intro p hpAB hpC
    have h3 := memC p hpC
    rcases List.mem_append.mp hpAB with hpA | hpB
    · have h1 := memA p hpA
      omega
    · have h2 := memB p hpB
      omega
  · exact List.Nodup.map
      (fun a b hab => by simp only [Prod.mk.injEq] at hab; omega)
      (List.nodup_range (2 * r - 1))
  · intro p hpABC hpD
    have h4 := memD p hpD
    rcases List.mem_append.mp hpABC with hpAB | hpC
    · rcases List.mem_append.mp hpAB with hpA | hpB
      · have h1 := memA p hpA
        omega
      · have h2 := memB p hpB
        omega
    · have h3 := memC p hpC
      omega

theorem pairwise_flatMap_of {α : Type} (R : α → α → Prop) (f : ℕ → List α) :
    ∀ (l : List ℕ), (∀ i ∈ l, ∀ x ∈ f i, ∀ y ∈ f i, R x y) →
      l.Pairwise (fun i j => ∀ x ∈ f i, ∀ y ∈ f j, R x y) →
      (l.flatMap f).Pairwise R := by
  intro l
  induction l with
  | nil =>
    intro _ _
    simp
  | cons i t ih =>
    intro hin hpw
    rw [List.flatMap_cons, List.pairwise_append]
    rw [List.pairwise_cons] at hpw
    refine ⟨hin i (List.mem_cons_self i t) |> List.pairwise_of_forall_mem_list, ?_, ?_⟩
    · exact ih (fun j hj => hin j (List.mem_cons_of_mem i hj)) hpw.2
    · intro x hx y hy
      rcases List.mem_flatMap.mp hy with ⟨j, hj, hyj⟩
      exact hpw.1 j hj x hx y hyj

theorem spiralUpTo_pairwise (c : ℤ × ℤ) (maxR : ℕ) :
    (spiralUpTo c maxR).Pairwise (fun a b => cheb a c ≤ cheb b c) := by
  unfold spiralUpTo
  apply pairwise_flatMap_of
  · intro i _ x hx y hy
    rw [cheb_of_mem_spiral c.1 c.2 i x hx, cheb_of_mem_spiral c.1 c.2 i y hy]
  · refine (List.pairwise_lt_range (maxR + 1)).imp ?_
    intro i j hij x hx y hy
    rw [cheb_of_mem_spiral c.1 c.2 i x hx, cheb_of_mem_spiral c.1 c.2 j y hy]
    omega

theorem find?_decomp {α : Type} (p : α → Bool) :
    ∀ (l : List α) (a : α), l.find? p = some a →
      ∃ l1 l2, l = l1 ++ a :: l2 ∧ ∀ x ∈ l1, p x = false := by
  intro l
  induction l with
  | nil =>
    intro a h
    simp at h
  | cons x t ih =>
    intro a h
    rw [List.find?_cons] at h
    rcases hx : p x with _ | _
    · rw [hx] at h
      obtain ⟨l1, l2, rfl, hall⟩ := ih a h
      refine ⟨x :: l1, l2, rfl, ?_⟩
      intro y hy
      rcases List.mem_cons.mp hy with rfl | hy2
      · exact hx
      · exact hall y hy2
    · rw [hx] at h
      have hxa : x = a := by simpa using h
      subst hxa
      exact ⟨[], t, rfl, by simp⟩

theorem spiralSearchFrom_eq_find? (occ : Finset (ℤ × ℤ)) (c : ℤ × ℤ) :
    ∀ (fuel r : ℕ),
      spiralSearchFrom occ c r fuel
        = ((List.range fuel).flatMap (fun j => get_spiral_points c.1 c.2 (r + j))).find?
            (fun x => !decide (x ∈ occ)) := by
  intro fuel
  induction fuel with
  | zero =>
    intro r
    simp [spiralSearchFrom]
  | succ n ih =>
    intro r
    rw [List.range_succ_eq_map, List.flatMap_cons, List.flatMap_map, List.find?_append]
    have hshift : (fun (a : ℕ) => get_spiral_points c.1 c.2 (r + Nat.succ a))
        = (fun (a : ℕ) => get_spiral_points c.1 c.2 (r + 1 + a)) := by
      funext a
      rw [show r + Nat.succ a = r + 1 + a by omega]
    simp only [Nat.add_zero, hshift]
    rcases hf : (get_spiral_points c.1 c.2 r).find? (fun x => !decide (x ∈ occ)) with _ | q
    · simp only [spiralSearchFrom, hf, Option.none_or]
      exact ih (r + 1)
    · simp only [spiralSearchFrom, hf]
      rfl

/-- Claim C2: for every center and radius `r ≥ 1` the spiral enumeration
visits exactly the perimeter cells of the `(2r+1) × (2r+1)` square (the cells
at Chebyshev distance `r`), each exactly once, in the source's edge order;
consequently the full search enumeration visits cells in non-decreasing
Chebyshev distance from the preferred cell, and the cell claimed by the search
is the first unoccupied cell in that order. -/
theorem spiral_search_spec (cx cy : ℤ) (r : ℕ) (hr : 1 ≤ r) :
    ((get_spiral_points cx cy r).Nodup
      ∧ ∀ (px py : ℤ),
          (px, py) ∈ get_spiral_points cx cy r ↔ cheb (px, py) (cx, cy) = r)
    ∧ (∀ (c : ℤ × ℤ) (maxR : ℕ),
        (spiralUpTo c maxR).Pairwise (fun a b => cheb a c ≤ cheb b c))
    ∧ (∀ (occ : Finset (ℤ × ℤ)) (c : ℤ × ℤ) (maxR : ℕ) (q : ℤ × ℤ),
        spiralSearchFrom occ c 0 (maxR + 1) = some q →
        ∃ l1 l2, spiralUpTo c maxR = l1 ++ q :: l2
          ∧ (∀ x ∈ l1, x ∈ occ) ∧ q ∉ occ) := by
  refine ⟨⟨spiral_nodup cx cy r hr, fun px py => mem_spiral_iff cx cy r hr px py⟩,
    fun c maxR => spiralUpTo_pairwise c maxR, ?_⟩
  intro occ c maxR q hq
  rw [spiralSearchFrom_eq_find? occ c (maxR + 1) 0] at hq
  have hqlist : spiralUpTo c maxR
      = (List.range (maxR + 1)).flatMap (fun j => get_spiral_points c.1 c.2 (0 + j)) := by
    unfold spiralUpTo
    simp
  obtain ⟨l1, l2, heq, hall⟩ := find?_decomp _ _ q hq
  refine ⟨l1, l2, ?_, ?_, ?_⟩
  · rw [hqlist, heq]
  · intro x hx
    have hfx := hall x hx
    simpa using hfx
  · have hfq := List.find?_some hq
    simpa using hfq

/-- Witness for `spiral_search_spec` at center `(0, 0)`, radius 1. -/
theorem spiral_search_spec_witness :
    1 ≤ 1 ∧
    (((get_spiral_points 0 0 1).Nodup
      ∧ ∀ (px py : ℤ),
          (px, py) ∈ get_spiral_points 0 0 1 ↔ cheb (px, py) (0, 0) = 1)
    ∧ (∀ (c : ℤ × ℤ) (maxR : ℕ),
        (spiralUpTo c maxR).Pairwise (fun a b => cheb a c ≤ cheb b c))
    ∧ (∀ (occ : Finset (ℤ × ℤ)) (c : ℤ × ℤ) (maxR : ℕ) (q : ℤ × ℤ),
        spiralSearchFrom occ c 0 (maxR + 1) = some q →
        ∃ l1 l2, spiralUpTo c maxR = l1 ++ q :: l2
          ∧ (∀ x ∈ l1, x ∈ occ) ∧ q ∉ occ)) :=
  ⟨by decide, spiral_search_spec 0 0 1 (by decide)⟩

theorem cheb_le_of_mem_spiralUpTo (c : ℤ × ℤ) (maxR : ℕ) (q : ℤ × ℤ)
    (h : q ∈ spiralUpTo c maxR) : cheb q c ≤ maxR := by
  obtain ⟨c1, c2⟩ := c
  unfold spiralUpTo at h
  rcases List.mem_flatMap.mp h with ⟨j, hj, hmem⟩
  rw [cheb_of_mem_spiral c1 c2 j q hmem]
  have := List.mem_range.mp hj
  omega

theorem placeLoop_forall2 (fuel : ℕ) :
    ∀ (ps : List (ℤ × ℤ)) (occ : Finset (ℤ × ℤ)),
      List.Forall₂ (fun q p => q ∈ spiralUpTo p (fuel - 1) ∨ q = p)
        (placeLoop fuel ps occ) ps := by
  intro ps
  induction ps with
  | nil =>
    intro occ
    exact List.Forall₂.nil
  | cons p rest ih =>
    intro occ
    rcases hq : spiralSearchFrom occ p 0 fuel with _ | q
    · simp only [placeLoop, hq]
      rcases hq2 : (get_spiral_points p.1 p.2 fuel).find? (fun c => !decide (c ∈ occ))
        with _ | q2
      · exact List.Forall₂.cons (Or.inr rfl) (ih occ)
      · exact List.Forall₂.cons (Or.inr rfl) (ih (insert q2 occ))
    · simp only [placeLoop, hq]
      refine List.Forall₂.cons (Or.inl ?_) (ih (insert q occ))
      obtain ⟨-, j, hj, hmem⟩ := spiralSearchFrom_some_spec occ p fuel 0 q hq
      unfold spiralUpTo
      refine List.mem_flatMap.mpr ⟨j, List.mem_range.mpr (by omega), ?_⟩
      simpa using hmem

/-- Claim C10: every output cell of `remove_overlaps` lies within Chebyshev
distance `2 * G` of that point's preferred cell (the rounded scaled
coordinate), and the claimed cell is not clamped to the nominal grid: with
four coincident inputs the second point is placed at `(-1, -1)`, a negative
coordinate outside `[0, G] × [0, G]`. -/
theorem displacement_bound_spec :
    (∀ (coords : List (ℚ × ℚ)) (spread s : ℚ),
      List.Forall₂
        (fun q p => (cheb q p : ℤ) ≤ 2 * grid_size s spread)
        (remove_overlaps coords spread s) (prefCells coords (grid_size s spread)))
    ∧ (-1, -1) ∈ remove_overlaps [((0:ℚ), (0:ℚ)), (0, 0), (0, 0), (0, 0)] 5 2 := by
  constructor
  · intro coords spread s
    unfold remove_overlaps
    split
    · have hc : coords = [] := List.length_eq_zero.mp (by assumption)
      subst hc
      simp [prefCells]
    · have hall := placeLoop_forall2 ((2 * grid_size s spread).toNat)
        (prefCells coords (grid_size s spread)) ∅
      have hG := grid_size_ge_100 s spread
      have hT : ((2 * grid_size s spread).toNat : ℤ) = 2 * grid_size s spread :=
        Int.toNat_of_nonneg (by omega)
      refine List.Forall₂.imp ?_ hall
      intro q p hqp
      rcases hqp with hmem | heqp
      · have hle := cheb_le_of_mem_spiralUpTo p ((2 * grid_size s spread).toNat - 1) q hmem
        omega
      · subst heqp
        unfold cheb
        omega
  · have hpref : prefCells [((0:ℚ), (0:ℚ)), (0, 0), (0, 0), (0, 0)] (grid_size 2 5)
        = [((0:ℤ), (0:ℤ)), (0, 0), (0, 0), (0, 0)] := by
      rw [grid_size_two_five]
      norm_num [prefCells, colMin, colMax, pyRound]
    unfold remove_overlaps
    rw [if_neg (by decide)]
    rw [hpref, grid_size_two_five]
    decide
theorem argminAux_spec (val : ℕ → ℚ) :
    ∀ (l : List ℚ) (i bi : ℕ) (bv : ℚ),
      (∀ k, k < l.length → l.getD k 0 = val (i + k)) → bv = val bi →
      (argminAux l i bi bv = bi ∨ ∃ k, k < l.length ∧ argminAux l i bi bv = i + k)
      ∧ val (argminAux l i bi bv) ≤ bv
      ∧ ∀ k, k < l.length → val (argminAux l i bi bv) ≤ val (i + k) := by
  intro l
  induction l with
  | nil =>
    intro i bi bv hval hbv
    refine ⟨Or.inl rfl, by rw [argminAux, hbv], ?_⟩
    intro k hk
    simp at hk
  | cons v rest ih =>
    intro i bi bv hval hbv
    have hv : v = val i := by
      have h0 := hval 0 (by simp)
      simpa using h0
    have hrest : ∀ k, k < rest.length → rest.getD k 0 = val (i + 1 + k) := by
      intro k hk
      have hk1 := hval (k + 1) (by simp; omega)
      rw [List.getD_cons_succ] at hk1
      rw [hk1]
      congr 1
      omega
    rw [argminAux]
    split_ifs with hlt
    · obtain ⟨hidx, hle, hall⟩ := ih (i + 1) i v hrest hv
      refine ⟨?_, ?_, ?_⟩
      · rcases hidx with heq | ⟨k, hk, heq⟩
        · exact Or.inr ⟨0, by simp, by rw [heq]; omega⟩
        · exact Or.inr ⟨k + 1, by simp; omega, by rw [heq]; omega⟩
      · exact le_trans hle (le_of_lt hlt)
      · intro k hk
        rcases Nat.eq_zero_or_pos k with rfl | hkpos
        · simpa [← hv] using hle
        · have := hall (k - 1) (by simp at hk; omega)
          rwa [show i + 1 + (k - 1) = i + k by omega] at this
    · obtain ⟨hidx, hle, hall⟩ := ih (i + 1) bi bv hrest hbv
      refine ⟨?_, hle, ?_⟩
      · rcases hidx with heq | ⟨k, hk, heq⟩
        · exact Or.inl heq
        · exact Or.inr ⟨k + 1, by simp; omega, by rw [heq]; omega⟩
      · intro k hk
        rcases Nat.eq_zero_or_pos k with rfl | hkpos
        · simpa [← hv] using le_trans hle (not_lt.mp hlt)
        · have := hall (k - 1) (by simp at hk; omega)
          rwa [show i + 1 + (k - 1) = i + k by omega] at this

theorem argminQ_spec (l : List ℚ) (hne : l ≠ []) :
    argminQ l < l.length ∧ ∀ k, k < l.length → l.getD (argminQ l) 0 ≤ l.getD k 0 := by
  rcases l with _ | ⟨v, rest⟩
  · exact absurd rfl hne
  · have hrest : ∀ k, k < rest.length → rest.getD k 0 = (v :: rest).getD (1 + k) 0 := by
      intro k hk
      rw [show 1 + k = k + 1 by omega, List.getD_cons_succ]
    obtain ⟨hidx, hle, hall⟩ := argminAux_spec (fun j => (v :: rest).getD j 0)
      rest 1 0 v hrest (by simp)
    rw [argminQ]
    constructor
    · rcases hidx with heq | ⟨k, hk, heq⟩
      · rw [heq]
        simp
      · rw [heq]
        simp
        omega
    · intro k hk
      rcases Nat.eq_zero_or_pos k with rfl | hkpos
      · simpa using hle
      · have := hall (k - 1) (by simp at hk; omega)
        rwa [show 1 + (k - 1) = k by omega] at this

/-- Claim C4 counterexample: one visible point at `(3, 4)`, identity view
transforms, cursor at the origin, pixel threshold 6.  The on-screen Euclidean
distance is `5 < 6`, so the claim predicts a match, but the source gates on
the Manhattan screen distance `|3| + |4| = 7 ≥ 6` and reports no match. -/
theorem find_nearest_euclid_ctex :
    dist2 ((3 : ℚ), 4) (0, 0) < 6 ^ 2
    ∧ find_nearest_point [⟨"p.wav", 3, 4, "KICK", 1⟩] id id (0, 0) 6 = none := by
  constructor
  · norm_num [dist2]
  · norm_num [find_nearest_point, argminQ, argminAux, manhattan, ptOf, dist2]

/-- Claim C4 (amended): on a nonempty visible set, `find_nearest_point`
selects a visible record minimizing the data-space Euclidean distance to the
mapped cursor (squared distances compare identically), and returns it exactly
when its on-screen **Manhattan** distance (`QPointF.manhattanLength`), not the
Euclidean one, is below the pixel threshold; otherwise it reports no match.
Hidden points are never returned: the result is an element of the visible
list. -/
theorem find_nearest_manhattan_spec (visible : List SampleRec)
    (toView toScene : ℚ × ℚ → ℚ × ℚ) (scene_pos : ℚ × ℚ) (threshold : ℚ)
    (hne : visible ≠ []) :
    ∃ i, i < visible.length
      ∧ (∀ j, j < visible.length →
          dist2 (ptOf (visible.getD i default)) (toView scene_pos)
            ≤ dist2 (ptOf (visible.getD j default)) (toView scene_pos))
      ∧ find_nearest_point visible toView toScene scene_pos threshold
          = (if manhattan (toScene (ptOf (visible.getD i default))) scene_pos < threshold
             then some ((visible.getD i default).path, ptOf (visible.getD i default),
                 manhattan (toScene (ptOf (visible.getD i default))) scene_pos)
             else none) := by
  have hie : visible.isEmpty = false := by
    rcases visible with _ | ⟨v, t⟩
    · exact absurd rfl hne
    · rfl
  set dists := visible.map (fun it => dist2 (ptOf it) (toView scene_pos)) with hdists
  have hdne : dists ≠ [] := by
    rw [hdists]
    simpa using hne
  have hdlen : dists.length = visible.length := by
    rw [hdists, List.length_map]
  obtain ⟨hmi, hmin⟩ := argminQ_spec dists hdne
  have hgetD : ∀ j, j < visible.length →
      dists.getD j 0 = dist2 (ptOf (visible.getD j default)) (toView scene_pos) := by
    intro j hj
    rw [List.getD_eq_getElem dists 0 (by omega), List.getD_eq_getElem visible default hj]
    simp only [hdists, List.getElem_map]
  refine ⟨argminQ dists, by omega, ?_, ?_⟩
  · intro j hj
    have h1 := hmin j (by omega)
    rw [hgetD (argminQ dists) (by omega), hgetD j hj] at h1
    exact h1
  · unfold find_nearest_point
    rw [hie]
    rfl

theorem dist2_nonneg (a b : ℚ × ℚ) : 0 ≤ dist2 a b := by
  unfold dist2
  positivity

theorem dist2_eq_zero_iff (a b : ℚ × ℚ) : dist2 a b = 0 ↔ a = b := by
  unfold dist2
  constructor
  · intro h
    have h1 := (add_eq_zero_iff_of_nonneg (sq_nonneg (a.1 - b.1))
      (sq_nonneg (a.2 - b.2))).mp h
    have hx : a.1 = b.1 :=
      sub_eq_zero.mp (pow_eq_zero_iff (two_ne_zero) |>.mp h1.1)
    have hy : a.2 = b.2 :=
      sub_eq_zero.mp (pow_eq_zero_iff (two_ne_zero) |>.mp h1.2)
    exact Prod.ext hx hy
  · rintro rfl
    ring

/-- Claim C5: with at least two stored points with pairwise-distinct
coordinates and the current position equal to a stored point,
`jump_to_random_neighbor` (for every argsort permutation `idx` of the
distances and every random draw `k`) never returns the querying point itself,
draws its candidates from all stored points, and returns a point whose
data-space distance from the current position is at most the value in sorted
position `min 50 (n-1)` — the 50th-smallest nonzero distance. -/
theorem random_neighbor_spec (points : List (ℚ × ℚ)) (curr : ℚ × ℚ)
    (idx : List ℕ) (i0 : ℕ) (k : ℕ)
    (hn : 2 ≤ points.length) (hnd : points.Nodup)
    (hi0 : i0 < points.length) (hcurr : points.getD i0 (0, 0) = curr)
    (hsort : IsArgsort (allDists points curr) idx) :
    ∃ res, jump_to_random_neighbor points idx k = some res
      ∧ res ∈ points
      ∧ res ≠ curr
      ∧ dist2 res curr
          ≤ (allDists points curr).getD
              (idx.getD (min 50 (points.length - 1)) 0) 0 := by
  obtain ⟨hperm, hpw⟩ := hsort
  have hd_len : (allDists points curr).length = points.length := by
    unfold allDists
    rw [List.length_map]
  have hidx_len : idx.length = points.length := by
    rw [hperm.length_eq, List.length_range, hd_len]
  have hidx_nd : idx.Nodup := hperm.symm.nodup (List.nodup_range _)
  have hmem_lt : ∀ j ∈ idx, j < points.length := by
    intro j hj
    have hjr := hperm.mem_iff.mp hj
    rw [List.mem_range, hd_len] at hjr
    exact hjr
  have hdval : ∀ j, j < points.length →
      (allDists points curr).getD j 0 = dist2 (points.getD j (0, 0)) curr := by
    intro j hj
    rw [List.getD_eq_getElem _ 0 (by omega), List.getD_eq_getElem points (0, 0) hj]
    unfold allDists
    simp only [List.getElem_map]
  have hzero : (allDists points curr).getD i0 0 = 0 := by
    rw [hdval i0 hi0, hcurr]
    exact (dist2_eq_zero_iff curr curr).mpr rfl
  have hpos : ∀ j, j < points.length → j ≠ i0 →
      0 < (allDists points curr).getD j 0 := by
    intro j hj hji
    rw [hdval j hj]
    rcases lt_or_eq_of_le (dist2_nonneg (points.getD j (0, 0)) curr) with hlt | heq
    · exact hlt
    · exfalso
      have hjeq : points.getD j (0, 0) = curr := (dist2_eq_zero_iff _ _).mp heq.symm
      rw [← hcurr] at hjeq
      rw [List.getD_eq_getElem points (0, 0) hj, List.getD_eq_getElem points (0, 0) hi0]
        at hjeq
      exact hji ((hnd.getElem_inj_iff).mp hjeq)
  rcases hidx : idx with _ | ⟨h0, t⟩
  · rw [hidx] at hidx_len
    simp at hidx_len
    omega
  subst hidx
  rw [List.pairwise_cons] at hpw
  have hh0idx : h0 < points.length := hmem_lt h0 (List.mem_cons_self h0 t)
  have hh0 : h0 = i0 := by
    by_contra hne
    have hi0mem : i0 ∈ h0 :: t := by
      apply hperm.mem_iff.mpr
      rw [List.mem_range, hd_len]
      exact hi0
    have hi0t : i0 ∈ t := by
      rcases List.mem_cons.mp hi0mem with heq | ht
      · exact absurd heq.symm hne
      · exact ht
    have hle := hpw.1 i0 hi0t
    rw [hzero] at hle
    exact absurd hle (not_le.mpr (hpos h0 hh0idx hne))
  subst hh0
  have ht_len : t.length = points.length - 1 := by
    simp only [List.length_cons] at hidx_len
    omega
  have hcand_len : (t.take 50).length = min 50 (points.length - 1) := by
    rw [List.length_take, ht_len]
  have hcand_pos : 0 < (t.take 50).length := by
    rw [hcand_len]
    omega
  have hcE : (t.take 50).isEmpty = false := by
    rw [List.isEmpty_eq_false]
    intro hnil
    rw [hnil] at hcand_pos
    simp at hcand_pos
  have hjump : jump_to_random_neighbor points (h0 :: t) k
      = some (points.getD ((t.take 50).getD (k % (t.take 50).length) 0) (0, 0)) := by
    simp only [jump_to_random_neighbor, List.drop_one, List.tail_cons, hcE,
      Bool.false_eq_true, if_false]
  set pos := k % (t.take 50).length with hpos_def
  have hpos_lt : pos < (t.take 50).length := Nat.mod_lt _ hcand_pos
  set r := (t.take 50).getD pos 0 with hr_def
  have hr_get : r = t.getD pos 0 := by
    rw [hr_def, List.getD_eq_getElem _ 0 hpos_lt,
      List.getD_eq_getElem t 0 (by rw [hcand_len] at hpos_lt; omega)]
    exact List.getElem_take t
  have hrt : r ∈ t := by
    rw [hr_def]
    exact List.take_subset 50 t
      (by rw [List.getD_eq_getElem _ 0 hpos_lt]; exact List.getElem_mem hpos_lt)
  have hr_lt : r < points.length := hmem_lt r (List.mem_cons_of_mem h0 hrt)
  have hr_ne : r ≠ h0 := by
    intro heq
    rw [List.nodup_cons] at hidx_nd
    exact hidx_nd.1 (heq ▸ hrt)
  refine ⟨points.getD r (0, 0), hjump, ?_, ?_, ?_⟩
  · rw [List.getD_eq_getElem points (0, 0) hr_lt]
    exact List.getElem_mem hr_lt
  · intro heq
    rw [← hcurr] at heq
    rw [List.getD_eq_getElem points (0, 0) hr_lt, List.getD_eq_getElem points (0, 0) hi0]
      at heq
    exact hr_ne ((hnd.getElem_inj_iff).mp heq)
  · have hm1 : 1 ≤ min 50 (points.length - 1) := by omega
    have htarget : (h0 :: t).getD (min 50 (points.length - 1)) 0
        = t.getD (min 50 (points.length - 1) - 1) 0 := by
      rw [show min 50 (points.length - 1) = (min 50 (points.length - 1) - 1) + 1 by omega,
        List.getD_cons_succ]
      congr 1
    rw [htarget, ← hdval r hr_lt, hr_get]
    have hq_lt : min 50 (points.length - 1) - 1 < t.length := by
      rw [ht_len]
      omega
    have hpos_lt2 : pos < t.length := by
      rw [hcand_len] at hpos_lt
      rw [ht_len]
      omega
    rcases Nat.lt_or_ge pos (min 50 (points.length - 1) - 1) with hlt | hge
    · have hsorted := List.pairwise_iff_getElem.mp hpw.2 pos
        (min 50 (points.length - 1) - 1) hpos_lt2 hq_lt hlt
      rw [List.getD_eq_getElem t 0 hpos_lt2, List.getD_eq_getElem t 0 hq_lt]
      exact hsorted
    · have hpe : pos = min 50 (points.length - 1) - 1 := by
        rw [hcand_len] at hpos_lt
        omega
      rw [hpe]

/-- Witness for `find_nearest_manhattan_spec`: one visible point, identity
transforms, cursor at the origin, threshold 10. -/
theorem find_nearest_manhattan_spec_witness :
    ([(⟨"a.wav", 0, 0, "KICK", 1⟩ : SampleRec)] ≠ [])
    ∧ ∃ i, i < 1
      ∧ (∀ j, j < 1 →
          dist2 (ptOf (([(⟨"a.wav", 0, 0, "KICK", 1⟩ : SampleRec)]).getD i default))
              ((0 : ℚ), (0 : ℚ))
            ≤ dist2 (ptOf (([(⟨"a.wav", 0, 0, "KICK", 1⟩ : SampleRec)]).getD j default))
              ((0 : ℚ), (0 : ℚ)))
      ∧ find_nearest_point [⟨"a.wav", 0, 0, "KICK", 1⟩] id id (0, 0) 10
          = (if manhattan
                (ptOf (([(⟨"a.wav", 0, 0, "KICK", 1⟩ : SampleRec)]).getD i default))
                ((0 : ℚ), (0 : ℚ)) < 10
             then some ((([(⟨"a.wav", 0, 0, "KICK", 1⟩ : SampleRec)]).getD i default).path,
                 ptOf (([(⟨"a.wav", 0, 0, "KICK", 1⟩ : SampleRec)]).getD i default),
                 manhattan
                   (ptOf (([(⟨"a.wav", 0, 0, "KICK", 1⟩ : SampleRec)]).getD i default))
                   ((0 : ℚ), (0 : ℚ)))
             else none) :=
  ⟨List.cons_ne_nil _ _,
    find_nearest_manhattan_spec [⟨"a.wav", 0, 0, "KICK", 1⟩] id id (0, 0) 10
      (List.cons_ne_nil _ _)⟩

/-- Witness for `random_neighbor_spec`: three collinear points, current
position at the first one, the identity argsort permutation, draw 7. -/
theorem random_neighbor_spec_witness :
    2 ≤ ([((0:ℚ), (0:ℚ)), (1, 0), (3, 0)] : List (ℚ × ℚ)).length
    ∧ ([((0:ℚ), (0:ℚ)), (1, 0), (3, 0)] : List (ℚ × ℚ)).Nodup
    ∧ IsArgsort (allDists [((0:ℚ), (0:ℚ)), (1, 0), (3, 0)] (0, 0)) [0, 1, 2]
    ∧ ∃ res,
        jump_to_random_neighbor [((0:ℚ), (0:ℚ)), (1, 0), (3, 0)] [0, 1, 2] 7 = some res
        ∧ res ∈ ([((0:ℚ), (0:ℚ)), (1, 0), (3, 0)] : List (ℚ × ℚ))
        ∧ res ≠ (0, 0)
        ∧ dist2 res (0, 0)
            ≤ (allDists [((0:ℚ), (0:ℚ)), (1, 0), (3, 0)] (0, 0)).getD
                (([0, 1, 2] : List ℕ).getD
                  (min 50 (([((0:ℚ), (0:ℚ)), (1, 0), (3, 0)] : List (ℚ × ℚ)).length - 1))
                  0) 0 := by
  have hdists_eval : allDists [((0:ℚ), (0:ℚ)), (1, 0), (3, 0)] (0, 0) = [0, 1, 9] := by
    norm_num [allDists, dist2]
  have hsort : IsArgsort (allDists [((0:ℚ), (0:ℚ)), (1, 0), (3, 0)] (0, 0)) [0, 1, 2] := by
    rw [IsArgsort, hdists_eval]
    exact ⟨by decide, by decide⟩
  exact ⟨by decide, by decide, hsort,
    random_neighbor_spec [((0:ℚ), (0:ℚ)), (1, 0), (3, 0)] (0, 0) [0, 1, 2] 0 7
      (by decide) (by decide) (by decide) rfl hsort⟩

theorem find?_congr_mem {α : Type} (p q : α → Bool) :
    ∀ (l : List α), (∀ c ∈ l, p c = q c) → l.find? p = l.find? q := by
  intro l
  induction l with
  | nil => intro _; rfl
  | cons x t ih =>
    intro h
    rw [List.find?_cons, List.find?_cons, h x (List.mem_cons_self x t),
      ih (fun c hc => h c (List.mem_cons_of_mem x hc))]

theorem find?_not_mem_take {α : Type} [DecidableEq α] :
    ∀ (L : List α) (m : ℕ) (hm : m < L.length), L.Nodup →
      L.find? (fun c => !decide (c ∈ (L.take m).toFinset)) = some (L.get ⟨m, hm⟩) := by
  intro L
  induction L with
  | nil => intro m hm _; simp at hm
  | cons x t ih =>
    intro m hm hnd
    rcases m with _ | m'
    · simp only [List.find?_cons]
      have hx : (!decide (x ∈ ((x :: t).take 0).toFinset)) = true := by simp
      rw [hx]
      rfl
    · simp only [List.find?_cons]
      have hx : (!decide (x ∈ ((x :: t).take (m' + 1)).toFinset)) = false := by
        simp [List.take_succ_cons]
      rw [hx]
      have hcong : t.find? (fun c => !decide (c ∈ ((x :: t).take (m' + 1)).toFinset))
          = t.find? (fun c => !decide (c ∈ (t.take m').toFinset)) := by
        apply find?_congr_mem
        intro c hc
        have hcx : c ≠ x := by
          intro h
          rw [List.nodup_cons] at hnd
          exact hnd.1 (h ▸ hc)
        simp [List.take_succ_cons, hcx]
      rw [hcong, ih m' (by simpa using hm) (List.nodup_cons.mp hnd).2]
      rfl

theorem nodup_flatMap_of {α : Type} (f : ℕ → List α) :
    ∀ (l : List ℕ), (∀ i ∈ l, (f i).Nodup) →
      l.Pairwise (fun i j => ∀ x ∈ f i, x ∉ f j) →
      (l.flatMap f).Nodup := by
  intro l
  induction l with
  | nil => intro _ _; simp
  | cons i t ih =>
    intro hin hpw
    rw [List.flatMap_cons, List.nodup_append]
    rw [List.pairwise_cons] at hpw
    refine ⟨hin i (List.mem_cons_self i t),
      ih (fun j hj => hin j (List.mem_cons_of_mem i hj)) hpw.2, ?_⟩
    intro x hx hxt
    rcases List.mem_flatMap.mp hxt with ⟨j, hj, hxj⟩
    exact hpw.1 j hj x hx hxj

theorem spiralUpTo_nodup (c : ℤ × ℤ) (maxR : ℕ) : (spiralUpTo c maxR).Nodup := by
  unfold spiralUpTo
  apply nodup_flatMap_of
  · intro i _
    rcases Nat.eq_zero_or_pos i with rfl | hi
    · unfold get_spiral_points
      rw [if_pos rfl]
      exact List.nodup_singleton _
    · exact spiral_nodup c.1 c.2 i hi
  · refine (List.pairwise_lt_range (maxR + 1)).imp ?_
    intro i j hij x hxi hxj
    have h1 := cheb_of_mem_spiral c.1 c.2 i x hxi
    have h2 := cheb_of_mem_spiral c.1 c.2 j x hxj
    omega

theorem spiral_length (cx cy : ℤ) (r : ℕ) (hr : 1 ≤ r) :
    (get_spiral_points cx cy r).length = 8 * r := by
  unfold get_spiral_points
  rw [if_neg (by omega)]
  simp only [List.length_append, List.length_map, List.length_range]
  omega

theorem spiralUpTo_length (c : ℤ × ℤ) (maxR : ℕ) :
    (spiralUpTo c maxR).length = (2 * maxR + 1) ^ 2 := by
  induction maxR with
  | zero =>
    unfold spiralUpTo
    rw [show (0 : ℕ) + 1 = 1 from rfl, show List.range 1 = [0] from rfl]
    simp [get_spiral_points]
  | succ n ih =>
    unfold spiralUpTo at ih ⊢
    rw [List.range_succ, List.flatMap_append, List.length_append, ih]
    simp only [List.flatMap_cons, List.flatMap_nil, List.append_nil]
    rw [spiral_length c.1 c.2 (n + 1) (by omega)]
    ring

theorem spiralSearchFrom_eq_find?_upTo (occ : Finset (ℤ × ℤ)) (c : ℤ × ℤ) (maxR : ℕ) :
    spiralSearchFrom occ c 0 (maxR + 1)
      = (spiralUpTo c maxR).find? (fun x => !decide (x ∈ occ)) := by
  rw [spiralSearchFrom_eq_find? occ c (maxR + 1) 0]
  unfold spiralUpTo
  have h : (fun (j : ℕ) => get_spiral_points c.1 c.2 (0 + j))
      = (fun (r : ℕ) => get_spiral_points c.1 c.2 r) := by
    funext j
    rw [Nat.zero_add]
  rw [h]

theorem toFinset_take_succ {α : Type} [DecidableEq α] (L : List α) (m : ℕ)
    (hm : m < L.length) :
    (L.take (m + 1)).toFinset = insert (L.get ⟨m, hm⟩) ((L.take m).toFinset) := by
  apply Finset.ext
  intro a
  rw [List.mem_toFinset, ← List.take_concat_get L m hm, List.concat_eq_append,
    List.mem_append]
  simp [or_comm, List.get_eq_getElem]

theorem placeLoop_replicate (c : ℤ × ℤ) (maxR : ℕ) :
    ∀ (k m : ℕ), m + k = (spiralUpTo c maxR).length + 1 →
      m ≤ (spiralUpTo c maxR).length →
      placeLoop (maxR + 1) (List.replicate k c) (((spiralUpTo c maxR).take m).toFinset)
        = (spiralUpTo c maxR).drop m ++ [c] := by
  intro k
  induction k with
  | zero => intro m h1 h2; omega
  | succ n ih =>
    intro m h1 h2
    rcases Nat.lt_or_ge m (spiralUpTo c maxR).length with hm | hm
    · have hfind : spiralSearchFrom (((spiralUpTo c maxR).take m).toFinset) c 0 (maxR + 1)
          = some ((spiralUpTo c maxR).get ⟨m, hm⟩) := by
        rw [spiralSearchFrom_eq_find?_upTo]
        exact find?_not_mem_take (spiralUpTo c maxR) m hm (spiralUpTo_nodup c maxR)
      rw [List.replicate_succ]
      simp only [placeLoop, hfind]
      rw [← toFinset_take_succ (spiralUpTo c maxR) m hm]
      rw [ih (m + 1) (by omega) (by omega)]
      rw [List.drop_eq_getElem_cons hm, List.cons_append]
      rfl
    · have hmeq : m = (spiralUpTo c maxR).length := by omega
      have hn0 : n = 0 := by omega
      subst hmeq hn0
      rw [List.take_length]
      have hnone : spiralSearchFrom ((spiralUpTo c maxR).toFinset) c 0 (maxR + 1)
          = none := by
        rw [spiralSearchFrom_eq_find?_upTo, List.find?_eq_none]
        intro x hx
        simp [List.mem_toFinset.mpr hx]
      rw [List.replicate_succ, List.replicate_zero]
      simp only [placeLoop, hnone]
      rcases hring : (get_spiral_points c.1 c.2 (maxR + 1)).find?
          (fun q => !decide (q ∈ (spiralUpTo c maxR).toFinset)) with _ | q2
      · simp [hring, placeLoop, List.drop_length]
      · simp [hring, placeLoop, List.drop_length]

theorem foldl_min_self (q : ℚ) : ∀ k, List.foldl min q (List.replicate k q) = q := by
  intro k
  induction k with
  | zero => rfl
  | succ n ih =>
    rw [List.replicate_succ, List.foldl_cons, min_self]
    exact ih

theorem foldl_max_self (q : ℚ) : ∀ k, List.foldl max q (List.replicate k q) = q := by
  intro k
  induction k with
  | zero => rfl
  | succ n ih =>
    rw [List.replicate_succ, List.foldl_cons, max_self]
    exact ih

theorem colMin_replicate_zero (n : ℕ) : colMin (List.replicate n (0 : ℚ)) = 0 := by
  rcases n with _ | n'
  · rfl
  · rw [List.replicate_succ]
    show List.foldl min 0 (List.replicate n' 0) = 0
    exact foldl_min_self 0 n'

theorem colMax_replicate_zero (n : ℕ) : colMax (List.replicate n (0 : ℚ)) = 0 := by
  rcases n with _ | n'
  · rfl
  · rw [List.replicate_succ]
    show List.foldl max 0 (List.replicate n' 0) = 0
    exact foldl_max_self 0 n'

theorem prefCells_replicate (n : ℕ) (G : ℤ) :
    prefCells (List.replicate n ((0:ℚ), (0:ℚ))) G = List.replicate n ((0:ℤ), (0:ℤ)) := by
  unfold prefCells
  norm_num [List.map_replicate, colMin_replicate_zero, colMax_replicate_zero, pyRound]

theorem grid_size_399_0 : grid_size 399 0 = 100 := by
  have h : grid_size 399 0 = if pyInt (399 * 0) < 100 then 100 else pyInt (399 * 0) := rfl
  rw [h]
  norm_num [pyInt]

/-- Claim C1 counterexample: 159202 coincident input points with `spread = 0`
give grid side `G = 100` (for every value of `sqrt n`, since `sqrt n * 0 = 0`;
here `s = 399` is passed), and `n = 159202 ≤ (2·(2·100)+1)^2 = 160801`, the
bound claimed by the spec — yet the output contains `(0, 0)` twice: the first
159201 points fill the entire Chebyshev ball of radius `199 = 2·100 − 1`
around the shared preferred cell `(0, 0)`, and the last point finds its free
cell only on ring `2·100`, where the source increments `radius` past the cap
after `found = True` and therefore records the occupied preferred cell
`(0, 0)` again. -/
theorem remove_overlaps_collision_ctex :
    (0 : ℚ) ≤ 0
    ∧ grid_size 399 0 = 100
    ∧ ((List.replicate 159202 ((0:ℚ), (0:ℚ))).length : ℤ)
        ≤ (2 * (2 * grid_size 399 0) + 1) ^ 2
    ∧ ¬ (remove_overlaps (List.replicate 159202 ((0:ℚ), (0:ℚ))) 0 399).Nodup := by
  have hG : grid_size 399 0 = 100 := grid_size_399_0
  have hL : (spiralUpTo ((0:ℤ), (0:ℤ)) 199).length = 159201 := by
    rw [spiralUpTo_length]
    norm_num
  refine ⟨le_refl 0, hG, ?_, ?_⟩
  · rw [hG, List.length_replicate]
    norm_num
  · intro hnd
    have hout : remove_overlaps (List.replicate 159202 ((0:ℚ), (0:ℚ))) 0 399
        = spiralUpTo ((0:ℤ), (0:ℤ)) 199 ++ [((0:ℤ), (0:ℤ))] := by
      unfold remove_overlaps
      rw [if_neg (by rw [List.length_replicate]; decide), hG, prefCells_replicate,
        show ((2 * (100:ℤ)).toNat) = 199 + 1 by decide,
        show (∅ : Finset (ℤ × ℤ))
          = ((spiralUpTo ((0:ℤ), (0:ℤ)) 199).take 0).toFinset by simp,
        placeLoop_replicate ((0:ℤ), (0:ℤ)) 199 159202 0 (by rw [hL]) (by omega),
        List.drop_zero]
    rw [hout, List.nodup_append] at hnd
    have hmem : ((0:ℤ), (0:ℤ)) ∈ spiralUpTo ((0:ℤ), (0:ℤ)) 199 := by
      unfold spiralUpTo
      refine List.mem_flatMap.mpr ⟨0, List.mem_range.mpr (by omega), ?_⟩
      unfold get_spiral_points
      simp
    exact hnd.2.2 hmem (List.mem_singleton.mpr rfl)
